import Mathlib

/-!
# Verification of the Planner genetic timetabling algorithm

Shallow embedding of the Rust sources of the `Planner` repository:

* `src/algorithm/datatypes.rs` — `Tuple`, `Gene`, `Chromosome`, `Individual`,
  `Population`;
* `src/algorithm/config.rs` — `AlgorithmConfig`;
* `src/algorithm/mod.rs` — `create_first_population`, `rand_parents`,
  `crossover`, `mutate`, `calculate_fitness`;
* `src/mpi_utils.rs` — `serialize_vec`, `mpi_split_data_across_nodes`,
  `mpi_gather_and_synchronize`.

Modelling conventions:

* Rust `i32` ids become `Int`, `usize` becomes `Nat`.  None of the embedded
  computations can overflow an `i32`/`usize` for the inputs the theorems use,
  and none of the arithmetic here wraps in the source (overflow would abort a
  debug build), so unbounded integers are faithful.
* Randomness (`rng.gen_range`, `gen_bool`, `choose`, `WeightedIndex::sample`)
  is passed in explicitly as functions/lists of draws.  A draw produced by
  `gen_range(0..k)` is always `< k` at runtime; theorems either hypothesise
  this or the embedding returns `none` for an impossible draw.
* A Rust `panic!`/`assert!`/out-of-bounds index/`unwrap` on `None` aborts the
  process; fallible operations are embedded as `Option`-returning functions
  where `none` means such an abort (or an impossible random draw; the theorems
  distinguish the two by quantifying over the draws).
* The MPI collectives are modelled by their data semantics: `scatter` hands
  rank `r` the `r`-th equal contiguous chunk of the root's send buffer,
  `gather` concatenates the per-rank buffers in rank order at the root and
  broadcast replicates the root's value, which is how `mpi_synchronize_ref`
  makes every rank end with the root's collection.  Serialization (`bincode`)
  is an abstract parameter `enc`/`dec`; the fixed-size and round-trip
  properties the code relies on are hypotheses of the theorems.
-/

namespace Planner

/-- `Tuple` from `src/algorithm/datatypes.rs`: one catalog entry
`{id, label, room, teacher}`. -/
structure Tuple where
  id : Int
  label : String
  room : String
  teacher : String
deriving DecidableEq, Repr

/-- `Gene` is a `Tuple` id (`pub type Gene = i32`). -/
abbrev Gene := Int

/-- `Chromosome` (a period): `{id, genes}`. -/
structure Chromosome where
  id : Int
  genes : List Gene
deriving DecidableEq, Repr

/-- `Individual`: `{adaptation, chromosomes}`; `Default` sets
`adaptation = -1000`. -/
structure Individual where
  adaptation : Int
  chromosomes : List Chromosome
deriving DecidableEq, Repr

/-- `Population` is a vector of individuals. -/
abbrev Population := List Individual

/-- `AlgorithmConfig` from `src/algorithm/config.rs`.  The three `f32`
fields are carried as `Float`; no theorem computes with them (the
probability fields only parameterise random draws, which are explicit). -/
structure AlgorithmConfig where
  maxGenerations : Nat
  populationSize : Nat
  numberOfPeriods : Nat
  crossoverProbability : Float
  mutationProbability : Float
  deadThreshold : Float

/-- All genes of a chromosome list, in chromosome order
(`chromosomes.iter().flat_map(|g| g.genes)`). -/
def chsGenes (chs : List Chromosome) : List Gene :=
  (chs.map (·.genes)).flatten

/-- The gene multiset of a chromosome list. -/
def chsGenesM (chs : List Chromosome) : Multiset Gene :=
  (chsGenes chs : Multiset Gene)

/-- The completeness invariant of the spec: the multiset of genes across the
individual's chromosomes is exactly the universe `u` of tuple ids, each id
once. -/
def complete (ind : Individual) (u : Finset Int) : Prop :=
  chsGenesM ind.chromosomes = u.val

/-- Map a fallible function over a list, `none` as soon as one element fails
(an aborted iteration aborts the whole computation). -/
def mapOption {α β : Type} (f : α → Option β) : List α → Option (List β)
  | [] => some []
  | x :: xs =>
    match f x, mapOption f xs with
    | some y, some ys => some (y :: ys)
    | _, _ => none

/-! ## Fitness (`calculate_fitness`, `src/algorithm/mod.rs` lines 243–316)

The `debug` parameter only controls `println!` and is dropped.  The
`.expect(...)` on a gene id missing from the catalog aborts; the embedding
returns `none` there. -/

/-- The fitness contribution of one gene of a period: resolve the tuple
(abort = `none` if absent), build `other_classes` (catalog tuples whose id
occurs in the period and differs from this gene's id) and subtract the four
penalty terms. -/
def geneFitness (tuples : List Tuple) (genes : List Gene) (geneId : Gene) :
    Option Int :=
  match tuples.find? (fun t => t.id == geneId) with
  | none => none
  | some tuple =>
    let other := tuples.filter (fun t => genes.contains t.id && t.id != tuple.id)
    let sameTeacherDifferentClasses :=
      ((other.filter (fun t => t.room == tuple.room)).filter
        (fun t => t.teacher == tuple.teacher)).length
    let sameRoomDifferentTeacher :=
      ((other.filter (fun t => t.room == tuple.room)).filter
        (fun t => t.teacher != tuple.teacher)).length
    let sameTeacherSameSubject :=
      ((other.filter (fun t => t.teacher == tuple.teacher)).filter
        (fun t => t.label == tuple.label)).length
    let sameTeacherDifferentSubject :=
      ((other.filter (fun t => t.teacher == tuple.teacher)).filter
        (fun t => t.label != tuple.label)).length
    some (-(sameTeacherDifferentClasses : Int) * 10
          - (sameRoomDifferentTeacher : Int) * 20
          - (sameTeacherSameSubject : Int) * 10
          - (sameTeacherDifferentSubject : Int) * 20)

/-- Sum of the contributions of the genes of one period, `none` if any gene
fails to resolve. -/
def periodFitness (tuples : List Tuple) (genes : List Gene) : Option Int :=
  (mapOption (geneFitness tuples genes) genes).map (·.foldl (· + ·) 0)

/-- `calculate_fitness(individual, tuples, debug)`: the penalties accumulated
over every period and every gene of it. -/
def calculate_fitness (ind : Individual) (tuples : List Tuple) : Option Int :=
  (mapOption (fun period => periodFitness tuples period.genes)
      ind.chromosomes).map (·.foldl (· + ·) 0)

/-! ## Population initialization (`create_first_population`, lines 25–58) -/

/-- Modify the element at index `i` of a list, identity when out of range.
Used to embed `individual.chromosomes[i].genes.push(..)`-style updates; every
theorem that relies on the update taking effect carries `i < length` (an
out-of-range index in the Rust source would abort, and the draws that produce
the index are always in range). -/
def modifyIdx {α : Type} (f : α → α) : Nat → List α → List α
  | _, [] => []
  | 0, x :: xs => f x :: xs
  | n + 1, x :: xs => x :: modifyIdx f n xs

/-- Append one gene to a chromosome (`chromosome.genes.push(gene)`). -/
def pushGene (g : Gene) (c : Chromosome) : Chromosome :=
  { c with genes := c.genes ++ [g] }

/-- `create_first_population(config, tuples)`.  `choice i j` is the draw
`rng.gen_range(0..number_of_periods)` made for tuple `j` of individual `i`;
theorems hypothesise `choice i j < numberOfPeriods` (as `gen_range`
guarantees; with `numberOfPeriods = 0` and a nonempty tuple list the source
aborts inside `gen_range`). -/
def create_first_population (config : AlgorithmConfig) (tuples : List Tuple)
    (choice : Nat → Nat → Nat) : Population :=
  (List.range config.populationSize).map (fun i =>
    { adaptation := -1000
      chromosomes :=
        tuples.enum.foldl
          (fun chs jt => modifyIdx (pushGene jt.2.id) (choice i jt.1) chs)
          ((List.range config.numberOfPeriods).map
            (fun pid => { id := Int.ofNat pid, genes := [] })) })

/-! ## Parent selection (`rand_parents`, lines 74–109) -/

/-- Stable insertion into a list sorted by `le`: the new element goes after
every already-placed element `y` with `le y x` (so equal elements keep their
original relative order). -/
def insertSorted {α : Type} (le : α → α → Bool) (x : α) : List α → List α
  | [] => [x]
  | y :: ys => if le y x then y :: insertSorted le x ys else x :: y :: ys

/-- Stable sort by `le` (insertion sort, processing the input left to
right). -/
def stableSortBy {α : Type} (le : α → α → Bool) (l : List α) : List α :=
  l.foldl (fun acc x => insertSorted le x acc) []

/-- The population sorted by adaptation descending
(`sorted_by(|a, b| b.adaptation.partial_cmp(&a.adaptation))`, a stable
sort). -/
def sortedByAdaptation (p : Population) : List Individual :=
  stableSortBy (fun a b => decide (b.adaptation ≤ a.adaptation)) p

/-- `rand_parents(parents)`.  `idx1` is the first `WeightedIndex` sample;
`idx2draws` is the stream of samples of the retry loop, of which the code
takes the first one different from `idx1` (every weight `exp(-0.3 x + 2)` is
positive, so the sampler can return any index `< len` and the loop terminates
with probability 1; an empty/exhausted stream or an out-of-range draw is
`none`).  `assert!(parents.len() > 1)` aborts on a too-small population. -/
def rand_parents (parents : Population) (idx1 : Nat) (idx2draws : List Nat) :
    Option (Individual × Individual) :=
  if parents.length > 1 then
    match idx2draws.find? (fun j => j != idx1) with
    | none => none
    | some idx2 =>
      match (sortedByAdaptation parents).get? idx1,
          (sortedByAdaptation parents).get? idx2 with
      | some a, some b => some (a, b)
      | _, _ => none
  else none

/-! ## Crossover with repair (`crossover`, lines 121–192) -/

/-- One chromosome of the recombined child (the body of the `par_iter().map`
closure, lines 133–158).  Aborts (`assert_eq!`) when the paired chromosome
ids differ.  Note the source swaps the names: `mother_genes` is bound to the
*father* chromosome's genes and vice versa; the child is
`mother_genes[..m] ++ father_genes[m..]`.  `m` is the draw
`rng.gen_range(0..=min(len, len))`; a draw above the bound is `none`. -/
def childChromosome (motherChromosome fatherChromosome : Chromosome)
    (m : Nat) : Option Chromosome :=
  if motherChromosome.id = fatherChromosome.id then
    let motherGenes := fatherChromosome.genes
    let fatherGenes := motherChromosome.genes
    let matingPointUpperBound := min motherGenes.length fatherGenes.length
    if m ≤ matingPointUpperBound then
      some { id := motherChromosome.id
             genes := motherGenes.take m ++ fatherGenes.drop m }
    else none
  else none

/-- The recombination over the zipped chromosome pairs; `mps i` is the mating
point drawn for pair `i`. -/
def crossChromosomes (mps : Nat → Nat) :
    Nat → List (Chromosome × Chromosome) → Option (List Chromosome)
  | _, [] => some []
  | i, p :: rest =>
    match childChromosome p.1 p.2 (mps i) with
    | none => none
    | some c =>
      match crossChromosomes mps (i + 1) rest with
      | none => none
      | some cs => some (c :: cs)

/-- The `lost_genes` computation (lines 165–175): the genes of the *mother*
individual that occur in no chromosome of the recombined child. -/
def lostGenes (mother : Individual) (childChs : List Chromosome) : List Gene :=
  let allGenes := (mother.chromosomes.map (·.genes)).flatten
  allGenes.filter (fun g => !(childChs.any (fun c => c.genes.contains g)))

/-- The spec's description of the same step ("all genes appearing in either
parent" that are absent from every child chromosome), for comparison with
`lostGenes` (refinement of the repair step). -/
def specLostGenes (mother father : Individual) (childChs : List Chromosome) :
    List Gene :=
  ((mother.chromosomes.map (·.genes)).flatten ++
      (father.chromosomes.map (·.genes)).flatten).filter
    (fun g => !(childChs.any (fun c => c.genes.contains g)))

/-- Appending the lost genes (lines 179–182): gene `k` of the list goes to
chromosome `lostChoice k`, drawn by `rng.gen_range(0..number_of_periods)`.
`none` when a draw is out of `gen_range`'s range or the indexing
`child.chromosomes[period_id]` would abort. -/
def placeLost (n : Nat) (lostChoice : Nat → Nat) :
    Nat → List Gene → List Chromosome → Option (List Chromosome)
  | _, [], chs => some chs
  | k, g :: gs, chs =>
    let periodId := lostChoice k
    if periodId < n ∧ periodId < chs.length then
      placeLost n lostChoice (k + 1) gs (modifyIdx (pushGene g) periodId chs)
    else none

/-- The duplicate-removal pass over one gene list
(`period.genes.retain(|x| seen.insert(x.clone()))`): returns the kept genes
and the updated `seen` set (modelled as a list). -/
def dedupGenes : List Gene → List Gene → List Gene × List Gene
  | [], seen => ([], seen)
  | g :: gs, seen =>
    if seen.contains g then dedupGenes gs seen
    else
      let r := dedupGenes gs (g :: seen)
      (g :: r.1, r.2)

/-- The duplicate-removal pass over the chromosomes in order, threading the
shared `seen` set (lines 185–189). -/
def dedupChromosomes : List Chromosome → List Gene → List Chromosome
  | [], _ => []
  | c :: cs, seen =>
    let r := dedupGenes c.genes seen
    { c with genes := r.1 } :: dedupChromosomes cs r.2

/-- `crossover` applied to already-selected parents (lines 128–191):
recombine chromosome pairs at the drawn mating points, append the lost genes,
then remove duplicates.  `Individual::with_chromosomes` sets
`adaptation = -1000`. -/
def crossover_parents (config : AlgorithmConfig) (mother father : Individual)
    (mps lostChoice : Nat → Nat) : Option Individual :=
  match crossChromosomes mps 0 (mother.chromosomes.zip father.chromosomes) with
  | none => none
  | some childChs =>
    match placeLost config.numberOfPeriods lostChoice 0
        (lostGenes mother childChs) childChs with
    | none => none
    | some repaired =>
      some { adaptation := -1000, chromosomes := dedupChromosomes repaired [] }

/-- `crossover(config, population)`: select the parents with `rand_parents`,
then recombine and repair. -/
def crossover (config : AlgorithmConfig) (population : Population)
    (idx1 : Nat) (idx2draws : List Nat) (mps lostChoice : Nat → Nat) :
    Option Individual :=
  match rand_parents population idx1 idx2draws with
  | none => none
  | some parents => crossover_parents config parents.1 parents.2 mps lostChoice

/-! ## Mutation (`mutate`, lines 202–236) -/

/-- One iteration of `mutate`'s loop body for period `pid`, given that the
mutation coin came up `true`: remove the gene at draw `genePick pid` (and,
via `retain`, every other copy of it in the same period), then push it onto
the chromosome at position `targetPick pid` of the list of chromosomes whose
id differs from `pid` (`iter_mut().filter(..).choose`).  `none` when the
period index is out of bounds (abort), a draw is out of range, or there is no
other chromosome (`choose(..).unwrap()` aborts). -/
def mutateStep (pid : Nat) (genePick targetPick : Nat → Nat)
    (chs : List Chromosome) : Option (List Chromosome) :=
  match chs.get? pid with
  | none => none
  | some c =>
    if c.genes.length = 0 then some chs
    else
      let gi := genePick pid
      if h : gi < c.genes.length then
        let gene := c.genes.get ⟨gi, h⟩
        let newGenes := (c.genes.eraseIdx gi).filter (fun g => g != gene)
        let chs1 := modifyIdx (fun cc => { cc with genes := newGenes }) pid chs
        let targets :=
          (chs1.enum.filter (fun ic => ic.2.id != Int.ofNat pid)).map (·.1)
        match targets.get? (targetPick pid) with
        | none => none
        | some j => some (modifyIdx (pushGene gene) j chs1)
      else none

/-- The loop of `mutate` over the period ids `pids`, threading the chromosome
list; `coin pid` is the `gen_bool(mutation_probability)` draw. -/
def mutateLoop (coin : Nat → Bool) (genePick targetPick : Nat → Nat) :
    List Nat → List Chromosome → Option (List Chromosome)
  | [], chs => some chs
  | pid :: rest, chs =>
    if coin pid then
      match mutateStep pid genePick targetPick chs with
      | none => none
      | some chs1 => mutateLoop coin genePick targetPick rest chs1
    else mutateLoop coin genePick targetPick rest chs

/-- `mutate(config, individual)`: run the loop for
`period_id in 0..number_of_periods`. -/
def mutate (config : AlgorithmConfig) (ind : Individual) (coin : Nat → Bool)
    (genePick targetPick : Nat → Nat) : Option Individual :=
  (mutateLoop coin genePick targetPick (List.range config.numberOfPeriods)
      ind.chromosomes).map
    (fun chs => { ind with chromosomes := chs })

/-! ## Collective distribution layer (`src/mpi_utils.rs`)

Serialization is an abstract encoder `enc : α → List Nat` (a byte as a `Nat`)
with decoder `dec`; `bincode` gives every value of one of the transferred
types a fixed positive byte length, which the theorems take as hypotheses.
The MPI collectives are modelled by their data semantics on the byte
buffers. -/

/-- Fuel-bounded worker for `chunksExact`; the fuel is always instantiated
with the list length, which suffices for every positive chunk size. -/
def chunksExactAux {α : Type} (b : Nat) : Nat → List α → List (List α)
  | _, [] => []
  | 0, _ :: _ => []
  | fuel + 1, x :: xs => (x :: xs).take b :: chunksExactAux b fuel ((x :: xs).drop b)

/-- `slice.chunks(b)`: split into contiguous chunks of length `b` (the last
may be shorter).  `chunks(0)` aborts in Rust; callers of this model guard
`b > 0` (a `bincode` serialization is never empty). -/
def chunksExact {α : Type} (b : Nat) (l : List α) : List (List α) :=
  chunksExactAux b l.length l

/-- `serialize_vec(data)` (lines 79–93): serialize every element, abort
(`assert_eq!`) unless consecutive serialized elements have equal lengths,
return the common element size and the flattened bytes.  Indexing
`serialized_data[0]` aborts on an empty input. -/
def serialize_vec {α : Type} (enc : α → List Nat) (data : List α) :
    Option (Nat × List Nat) :=
  let serialized := data.map enc
  match serialized with
  | [] => none
  | s0 :: rest =>
    if (serialized.zip rest).all (fun p => p.1.length == p.2.length) then
      some (s0.length, (s0 :: rest).flatten)
    else none

/-- `mpi_split_data_across_nodes(data, comm, root)` (lines 98–132), as seen
by rank `rank` of `size` ranks: after the root's `serialize_vec` and the
broadcast of `data_size`, `scatter` hands each rank the rank-th equal
contiguous chunk of the root's byte buffer, which the rank deserializes
chunkwise.  `assert_ne!(data.len(), 0)` and
`assert_eq!(data.len() % size, 0)` abort. -/
def mpi_split_data_across_nodes {α : Type} (enc : α → List Nat)
    (dec : List Nat → α) (data : List α) (size rank : Nat) : Option (List α) :=
  if data.length = 0 then none
  else
    let splitSize := data.length / size
    if data.length % size = 0 then
      match serialize_vec enc data with
      | none => none
      | some bs =>
        if bs.1 = 0 then none
        else
          let recData := ((bs.2.drop (rank * (bs.1 * splitSize))).take
            (bs.1 * splitSize))
          some ((chunksExact bs.1 recData).map dec)
    else none

/-- `mpi_gather_and_synchronize(gather_from, comm, root)` (lines 137–163):
every rank serializes its shard (rank `r`'s shard is `shards[r]`;
`assert_ne!` aborts on an empty one, as does `serialize_vec`), the root
gathers the byte buffers in rank order, splits the result at its own
`data_size` and deserializes, and `mpi_synchronize_ref` replicates the
root's collection to every rank — the returned value on every rank. -/
def mpi_gather_and_synchronize {α : Type} (enc : α → List Nat)
    (dec : List Nat → α) (shards : List (List α)) : Option (List α) :=
  match mapOption (serialize_vec enc) shards with
  | none => none
  | some serialized =>
    match serialized with
    | [] => none
    | s0 :: _ =>
      if s0.1 = 0 then none
      else
        let buffer := (serialized.map (·.2)).flatten
        some ((chunksExact s0.1 buffer).map dec)

/-! ## Concrete inputs used by witnesses and counterexamples -/

/-- Tuple `{id:1, teacher:"A", room:"101", label:"Math"}` of the spec's
penalty example. -/
def exTuple1 : Tuple := { id := 1, label := "Math", room := "101", teacher := "A" }

/-- Tuple `{id:2, teacher:"A", room:"101", label:"Math"}` of the spec's
penalty example. -/
def exTuple2 : Tuple := { id := 2, label := "Math", room := "101", teacher := "A" }

/-- The individual of the penalty example: both tuples in one chromosome,
the other chromosome empty. -/
def exPenaltyInd : Individual :=
  { adaptation := -1000
    chromosomes := [{ id := 0, genes := [1, 2] }, { id := 1, genes := [] }] }

/-- A one-tuple catalog with no conflicts. -/
def exSoloTuple : Tuple := { id := 3, label := "Bio", room := "B2", teacher := "C" }

/-- An individual holding only `exSoloTuple`. -/
def exSoloInd : Individual :=
  { adaptation := -1000, chromosomes := [{ id := 0, genes := [3] }] }

/-! ## Fitness theorems -/

theorem geneFitness_nonpos {tuples : List Tuple} {genes : List Gene}
    {gid : Gene} {v : Int} (h : geneFitness tuples genes gid = some v) :
    v ≤ 0 := by
  unfold geneFitness at h
  cases hfind : tuples.find? (fun t => t.id == gid) with
  | none => rw [hfind] at h; exact absurd h (by simp)
  | some tuple =>
    rw [hfind] at h
    simp only [Option.some.injEq] at h
    subst h
    have h1 := Int.ofNat_nonneg (((tuples.filter
      (fun t => genes.contains t.id && t.id != tuple.id)).filter
        (fun t => t.room == tuple.room)).filter
          (fun t => t.teacher == tuple.teacher)).length
    omega

theorem foldl_add_nonpos {l : List Int} {a : Int}
    (h : ∀ x ∈ l, x ≤ 0) : l.foldl (· + ·) a ≤ a := by
  induction l generalizing a with
  | nil => simp
  | cons x xs ih =>
    simp only [List.foldl_cons]
    calc xs.foldl (· + ·) (a + x) ≤ a + x := ih (fun y hy => h y (by simp [hy]))
    _ ≤ a := by have := h x (by simp); omega

theorem mapOption_mem {α β : Type} {f : α → Option β} {l : List α}
    {ys : List β} (h : mapOption f l = some ys) :
    ∀ y ∈ ys, ∃ x ∈ l, f x = some y := by
  induction l generalizing ys with
  | nil =>
    unfold mapOption at h
    simp only [Option.some.injEq] at h
    subst h; simp
  | cons x xs ih =>
    unfold mapOption at h
    cases hf : f x with
    | none => rw [hf] at h; exact absurd h (by simp)
    | some y0 =>
      cases hrest : mapOption f xs with
      | none => rw [hf, hrest] at h; exact absurd h (by simp)
      | some ys0 =>
        rw [hf, hrest] at h
        simp only [Option.some.injEq] at h
        subst h
        intro y hy
        rcases List.mem_cons.mp hy with rfl | hy0
        · exact ⟨x, by simp, hf⟩
        · obtain ⟨x0, hx0, hfx0⟩ := ih hrest y hy0
          exact ⟨x0, by simp [hx0], hfx0⟩

theorem periodFitness_nonpos {tuples : List Tuple} {genes : List Gene}
    {v : Int} (h : periodFitness tuples genes = some v) : v ≤ 0 := by
  unfold periodFitness at h
  cases hm : mapOption (geneFitness tuples genes) genes with
  | none => rw [hm] at h; exact absurd h (by simp)
  | some vs =>
    rw [hm] at h
    simp only [Option.map_some', Option.some.injEq] at h
    subst h
    exact foldl_add_nonpos (fun x hx => by
      obtain ⟨g, _, hg⟩ := mapOption_mem hm x hx
      exact geneFitness_nonpos hg)

/-- C9: whenever `calculate_fitness` returns (every gene resolved a catalog
tuple), the returned score is at most `0`: the code only ever subtracts
penalties. -/
theorem calculate_fitness_nonpos (ind : Individual) (tuples : List Tuple)
    (v : Int) (h : calculate_fitness ind tuples = some v) : v ≤ 0 := by
  unfold calculate_fitness at h
  cases hm : mapOption (fun period => periodFitness tuples period.genes) ind.chromosomes with
  | none => rw [hm] at h; exact absurd h (by simp)
  | some vs =>
    rw [hm] at h
    simp only [Option.map_some', Option.some.injEq] at h
    subst h
    exact foldl_add_nonpos (fun x hx => by
      obtain ⟨c, _, hc⟩ := mapOption_mem hm x hx
      exact periodFitness_nonpos hc)

/-- Witness for C9 at a concrete conflict-free individual. -/
theorem calculate_fitness_nonpos_witness :
    calculate_fitness exSoloInd [exSoloTuple] = some 0 ∧ (0 : Int) ≤ 0 :=
  ⟨by decide, calculate_fitness_nonpos exSoloInd [exSoloTuple] 0 (by decide)⟩

/-- C2 counterexample: on the spec's own penalty example the code does not
return `-20`. -/
theorem penalty_example_not_minus_twenty :
    calculate_fitness exPenaltyInd [exTuple1, exTuple2] ≠ some (-20) := by
  decide

/-- C2 (amended): the two identical-teacher-room-label tuples in one
chromosome score `-40`: each of the two genes contributes
`-10` (same teacher, same room) `-10` (same teacher, same label). -/
theorem penalty_example_fitness :
    calculate_fitness exPenaltyInd [exTuple1, exTuple2] = some (-40) := by
  decide

/-! ## Lost-gene repair (C3) -/

/-- A mother with an empty period and a father holding gene `1` in the
matching period. -/
def exMother : Individual :=
  { adaptation := -1000, chromosomes := [{ id := 0, genes := [] }] }

/-- See `exMother`. -/
def exFather : Individual :=
  { adaptation := -1000, chromosomes := [{ id := 0, genes := [1] }] }

/-- A one-period configuration (the `Float` fields are the source
defaults and are never computed with). -/
def exConfig1 : AlgorithmConfig :=
  { maxGenerations := 100, populationSize := 1, numberOfPeriods := 1,
    crossoverProbability := 0.6, mutationProbability := 0.01,
    deadThreshold := 0.1 }

/-- C3 counterexample: recombining `exMother`/`exFather` at mating point 0
gives a child with an empty period; gene `1` appears in the father (so in
the union of both parents) and in no child chromosome, yet the code's
repair list (`lostGenes`, computed from the mother alone) is empty, while
the claim's set (`specLostGenes`) is `[1]` — and accordingly the full
`crossover` returns a child without gene `1`. -/
theorem lostGenes_not_parent_union :
    crossChromosomes (fun _ => 0) 0
        (exMother.chromosomes.zip exFather.chromosomes) =
      some [{ id := 0, genes := [] }] ∧
    lostGenes exMother [{ id := 0, genes := [] }] = [] ∧
    specLostGenes exMother exFather [{ id := 0, genes := [] }] = [1] ∧
    crossover_parents exConfig1 exMother exFather (fun _ => 0) (fun _ => 0) =
      some { adaptation := -1000, chromosomes := [{ id := 0, genes := [] }] } := by
  decide

/-- Membership in the repair step's lost-gene list: a gene of the mother
absent from every chromosome of the recombined child. -/
theorem mem_lostGenes (mother : Individual) (childChs : List Chromosome)
    (g : Gene) :
    g ∈ lostGenes mother childChs ↔
      g ∈ chsGenes mother.chromosomes ∧ ∀ c ∈ childChs, g ∉ c.genes := by
  unfold lostGenes chsGenes
  simp only [List.mem_filter, Bool.not_eq_eq_eq_not, Bool.not_true,
    List.any_eq_false]
  constructor
  · rintro ⟨hmem, hall⟩
    exact ⟨hmem, fun c hc => by simpa using hall c hc⟩
  · rintro ⟨hmem, hall⟩
    exact ⟨hmem, fun c hc => by simpa using hall c hc⟩

/-- C3 (amended): the genes the repair step appends are exactly those that
appear in the *mother's* chromosomes (not the union of both parents) and are
absent from every chromosome of the recombined child. -/
theorem lostGenes_iff (mother : Individual) (childChs : List Chromosome)
    (g : Gene) :
    g ∈ lostGenes mother childChs ↔
      g ∈ chsGenes mother.chromosomes ∧ ∀ c ∈ childChs, g ∉ c.genes :=
  mem_lostGenes mother childChs g

/-! ## Parent selection (C6) -/

theorem length_insertSorted {α : Type} (le : α → α → Bool) (x : α)
    (l : List α) : (insertSorted le x l).length = l.length + 1 := by
  induction l with
  | nil => rfl
  | cons y ys ih =>
    unfold insertSorted
    by_cases h : le y x
    · rw [if_pos h]
      simp [ih]
    · rw [if_neg h]
      simp

theorem length_stableSortBy {α : Type} (le : α → α → Bool) (l : List α) :
    (stableSortBy le l).length = l.length := by
  suffices h : ∀ acc : List α,
      (l.foldl (fun acc x => insertSorted le x acc) acc).length =
        acc.length + l.length by
    simpa using h []
  induction l with
  | nil => intro acc; simp
  | cons x xs ih =>
    intro acc
    simp only [List.foldl_cons]
    rw [ih, length_insertSorted]
    simp only [List.length_cons]
    omega

theorem length_sortedByAdaptation (p : Population) :
    (sortedByAdaptation p).length = p.length :=
  length_stableSortBy _ p

/-- C6: `rand_parents` aborts on populations of length ≤ 1; a successful
return is the pair at two *distinct* indices of the adaptation-descending
sorted population; and when the draws are in range (as `WeightedIndex`
guarantees) with the retry stream producing some index different from
`idx1`, it does return a pair. -/
theorem rand_parents_spec (parents : Population) (idx1 : Nat)
    (idx2draws : List Nat) :
    (parents.length ≤ 1 → rand_parents parents idx1 idx2draws = none) ∧
    (∀ x y, rand_parents parents idx1 idx2draws = some (x, y) →
      ∃ i j, i ≠ j ∧ i < parents.length ∧ j < parents.length ∧
        (sortedByAdaptation parents).get? i = some x ∧
        (sortedByAdaptation parents).get? j = some y) ∧
    (∀ j, 1 < parents.length → idx1 < parents.length →
      idx2draws.find? (fun k => k != idx1) = some j → j < parents.length →
      ∃ x y, rand_parents parents idx1 idx2draws = some (x, y)) := by
  have hsortlen : (sortedByAdaptation parents).length = parents.length :=
    length_sortedByAdaptation parents
  refine ⟨?_, ?_, ?_⟩
  · intro hle
    unfold rand_parents
    rw [if_neg (by omega)]
  · intro x y h
    unfold rand_parents at h
    by_cases hlen : parents.length > 1
    · rw [if_pos hlen] at h
      cases hfind : idx2draws.find? (fun k => k != idx1) with
      | none => rw [hfind] at h; exact absurd h (by simp)
      | some idx2 =>
        rw [hfind] at h
        dsimp only at h
        have hne : idx2 ≠ idx1 := by
          have := List.find?_some hfind
          simpa using this
        cases hget1 : (sortedByAdaptation parents).get? idx1 with
        | none => rw [hget1] at h; exact absurd h (by simp)
        | some a =>
          cases hget2 : (sortedByAdaptation parents).get? idx2 with
          | none => rw [hget1, hget2] at h; exact absurd h (by simp)
          | some b =>
            rw [hget1, hget2] at h
            simp only [Option.some.injEq, Prod.mk.injEq] at h
            obtain ⟨rfl, rfl⟩ := h
            have h1 : idx1 < parents.length := by
              have := (List.get?_eq_some.mp hget1).1; omega
            have h2 : idx2 < parents.length := by
              have := (List.get?_eq_some.mp hget2).1; omega
            exact ⟨idx1, idx2, fun hEq => hne hEq.symm, h1, h2, hget1, hget2⟩
    · rw [if_neg hlen] at h
      exact absurd h (by simp)
  · intro j hlen h1 hfind hj
    unfold rand_parents
    rw [if_pos hlen, hfind]
    dsimp only
    rw [List.get?_eq_get (by omega : idx1 < (sortedByAdaptation parents).length),
      List.get?_eq_get (by omega : j < (sortedByAdaptation parents).length)]
    exact ⟨_, _, rfl⟩

/-- Two distinct individuals for the selection witness. -/
def exIndA : Individual := { adaptation := -3, chromosomes := [] }

/-- See `exIndA`. -/
def exIndB : Individual := { adaptation := -5, chromosomes := [] }

/-- Witness for C6 on a two-individual population. -/
theorem rand_parents_spec_witness :
    (([exIndA, exIndB] : Population).length ≤ 1 →
      rand_parents [exIndA, exIndB] 0 [1] = none) ∧
    (∀ x y, rand_parents [exIndA, exIndB] 0 [1] = some (x, y) →
      ∃ i j, i ≠ j ∧ i < ([exIndA, exIndB] : Population).length ∧
        j < ([exIndA, exIndB] : Population).length ∧
        (sortedByAdaptation [exIndA, exIndB]).get? i = some x ∧
        (sortedByAdaptation [exIndA, exIndB]).get? j = some y) ∧
    (∀ j, 1 < ([exIndA, exIndB] : Population).length →
      0 < ([exIndA, exIndB] : Population).length →
      ([1] : List Nat).find? (fun k => k != 0) = some j →
      j < ([exIndA, exIndB] : Population).length →
      ∃ x y, rand_parents [exIndA, exIndB] 0 [1] = some (x, y)) :=
  rand_parents_spec [exIndA, exIndB] 0 [1]

/-! ## List/multiset helper lemmas for the chromosome updates -/

theorem length_modifyIdx {α : Type} (f : α → α) (i : Nat) (l : List α) :
    (modifyIdx f i l).length = l.length := by
  induction l generalizing i with
  | nil => cases i <;> rfl
  | cons x xs ih => cases i <;> simp [modifyIdx, ih]

theorem map_modifyIdx {α β : Type} (f : α → α) (g : α → β) (i : Nat)
    (l : List α) (h : ∀ a, g (f a) = g a) :
    (modifyIdx f i l).map g = l.map g := by
  induction l generalizing i with
  | nil => cases i <;> rfl
  | cons x xs ih => cases i <;> simp [modifyIdx, ih, h]

theorem chsGenes_cons (c : Chromosome) (cs : List Chromosome) :
    chsGenes (c :: cs) = c.genes ++ chsGenes cs := rfl

theorem chsGenesM_cons (c : Chromosome) (cs : List Chromosome) :
    chsGenesM (c :: cs) = (c.genes : Multiset Gene) + chsGenesM cs := by
  simp [chsGenesM, chsGenes_cons]

theorem chsGenesM_modifyIdx {f : Chromosome → Chromosome} {i : Nat}
    {chs : List Chromosome} (h : i < chs.length) :
    chsGenesM (modifyIdx f i chs) + ((chs.get ⟨i, h⟩).genes : Multiset Gene) =
      chsGenesM chs + ((f (chs.get ⟨i, h⟩)).genes : Multiset Gene) := by
  induction chs generalizing i with
  | nil => simp at h
  | cons c cs ih =>
    cases i with
    | zero =>
      simp only [modifyIdx, chsGenesM_cons, List.get]
      abel
    | succ n =>
      have hn : n < cs.length := by simpa using h
      simp only [modifyIdx, chsGenesM_cons, List.get]
      have := ih hn
      calc (c.genes : Multiset Gene) + chsGenesM (modifyIdx f n cs) +
            ((cs.get ⟨n, hn⟩).genes : Multiset Gene)
          = (c.genes : Multiset Gene) +
            (chsGenesM (modifyIdx f n cs) + ((cs.get ⟨n, hn⟩).genes : Multiset Gene)) := by abel
        _ = (c.genes : Multiset Gene) +
            (chsGenesM cs + ((f (cs.get ⟨n, hn⟩)).genes : Multiset Gene)) := by rw [this]
        _ = (c.genes : Multiset Gene) + chsGenesM cs +
            ((f (cs.get ⟨n, hn⟩)).genes : Multiset Gene) := by abel

theorem chsGenesM_modifyIdx_pushGene {g : Gene} {i : Nat}
    {chs : List Chromosome} (h : i < chs.length) :
    chsGenesM (modifyIdx (pushGene g) i chs) = g ::ₘ chsGenesM chs := by
  have key := chsGenesM_modifyIdx (f := pushGene g) h
  have hpush : ((pushGene g (chs.get ⟨i, h⟩)).genes : Multiset Gene) =
      ((chs.get ⟨i, h⟩).genes : Multiset Gene) + {g} := by
    simp only [pushGene]
    rw [← Multiset.coe_singleton g, ← Multiset.coe_add]
  rw [hpush] at key
  have : chsGenesM (modifyIdx (pushGene g) i chs) +
      ((chs.get ⟨i, h⟩).genes : Multiset Gene) =
      (g ::ₘ chsGenesM chs) + ((chs.get ⟨i, h⟩).genes : Multiset Gene) := by
    rw [key]
    have : g ::ₘ chsGenesM chs = {g} + chsGenesM chs := (Multiset.singleton_add g _).symm
    rw [this]
    abel
  exact add_right_cancel this

theorem get_cons_eraseIdx {α : Type} (l : List α) (i : Nat) (h : i < l.length) :
    (l.get ⟨i, h⟩) ::ₘ ((l.eraseIdx i : List α) : Multiset α) = (l : Multiset α) := by
  induction l generalizing i with
  | nil => simp at h
  | cons x xs ih =>
    cases i with
    | zero => simp [List.eraseIdx]
    | succ n =>
      have hn : n < xs.length := by simpa using h
      simp only [List.eraseIdx, List.get, ← Multiset.cons_coe, Multiset.cons_swap]
      rw [ih n hn]

theorem nodup_get_not_mem_eraseIdx {α : Type} {l : List α} (hl : l.Nodup)
    (i : Nat) (h : i < l.length) : l.get ⟨i, h⟩ ∉ l.eraseIdx i := by
  have hm : ((l : Multiset α)).Nodup := by simpa using hl
  rw [← get_cons_eraseIdx l i h] at hm
  have := (Multiset.nodup_cons.mp hm).1
  intro hmem
  exact this (by simpa using hmem)

/-! ## Mutation preserves the gene multiset on duplicate-free individuals -/

theorem mutateStep_genesM {pid : Nat} {genePick targetPick : Nat → Nat}
    {chs chs2 : List Chromosome} (hnd : (chsGenes chs).Nodup)
    (h : mutateStep pid genePick targetPick chs = some chs2) :
    chsGenesM chs2 = chsGenesM chs := by
  unfold mutateStep at h
  cases hget : chs.get? pid with
  | none => rw [hget] at h; exact absurd h (by simp)
  | some c =>
    rw [hget] at h
    dsimp only at h
    by_cases hzero : c.genes.length = 0
    · rw [if_pos hzero] at h
      simp only [Option.some.injEq] at h
      rw [← h]
    · rw [if_neg hzero] at h
      rcases Nat.lt_or_ge (genePick pid) c.genes.length with hgi | hgi
      swap
      · rw [dif_neg (by omega)] at h
        exact absurd h (by simp)
      · rw [dif_pos hgi] at h
        set gene := c.genes.get ⟨genePick pid, hgi⟩ with hgene
        set newGenes := (c.genes.eraseIdx (genePick pid)).filter
          (fun g => g != gene) with hnew
        set chs1 := modifyIdx (fun cc => { cc with genes := newGenes }) pid chs
          with hchs1
        cases htgt : (((chs1.enum.filter
            (fun ic => ic.2.id != Int.ofNat pid)).map (·.1)).get?
              (targetPick pid)) with
        | none => rw [htgt] at h; exact absurd h (by simp)
        | some j =>
          rw [htgt] at h
          simp only [Option.some.injEq] at h
          -- `c` really is the entry at `pid`
          obtain ⟨hpid, hc⟩ := List.get?_eq_some.mp hget
          -- the genes of `c` are duplicate-free
          have hcnd : c.genes.Nodup := by
            have hcm : c ∈ chs := hc ▸ List.get_mem chs pid hpid
            exact (List.nodup_flatten.mp (by simpa [chsGenes] using hnd)).1
              c.genes (List.mem_map_of_mem (·.genes) hcm)
          -- the `retain` removes nothing: `gene` went away with `eraseIdx`
          have hfilter : newGenes = c.genes.eraseIdx (genePick pid) := by
            rw [hnew]
            apply List.filter_eq_self.mpr
            intro b hb
            have : b ≠ gene := by
              intro hbg
              rw [hbg] at hb
              exact nodup_get_not_mem_eraseIdx hcnd (genePick pid) hgi hb
            simpa using this
          -- erasing the picked gene and re-adding it is multiset-neutral
          have herase : (gene ::ₘ (newGenes : Multiset Gene)) =
              (c.genes : Multiset Gene) := by
            rw [hfilter]
            exact get_cons_eraseIdx c.genes (genePick pid) hgi
          have hkey := chsGenesM_modifyIdx
            (f := fun cc => { cc with genes := newGenes }) hpid
          rw [hc] at hkey
          dsimp only at hkey
          -- target index is in range
          have hj : j < chs1.length := by
            have hjm := List.get?_mem htgt
            obtain ⟨p, hp, hpj⟩ := List.mem_map.mp hjm
            have hpe : p ∈ chs1.enum := List.mem_of_mem_filter hp
            rw [List.enum_eq_zip_range chs1] at hpe
            have := (List.of_mem_zip hpe).1
            rw [List.mem_range] at this
            omega
          have hpush : chsGenesM chs2 = gene ::ₘ chsGenesM chs1 := by
            rw [← h]
            exact chsGenesM_modifyIdx_pushGene hj
          -- assemble: chsGenesM chs2 = chsGenesM chs
          have : chsGenesM chs2 + (newGenes : Multiset Gene) =
              chsGenesM chs + (newGenes : Multiset Gene) := by
            calc chsGenesM chs2 + (newGenes : Multiset Gene)
                = gene ::ₘ chsGenesM chs1 + (newGenes : Multiset Gene) := by
                  rw [hpush]
              _ = chsGenesM chs1 + (gene ::ₘ (newGenes : Multiset Gene)) := by
                  rw [← Multiset.singleton_add, ← Multiset.singleton_add]
                  abel
              _ = chsGenesM chs1 + (c.genes : Multiset Gene) := by rw [herase]
              _ = chsGenesM chs + (newGenes : Multiset Gene) := hkey
          exact add_right_cancel this

theorem mutateLoop_genesM {coin : Nat → Bool} {genePick targetPick : Nat → Nat}
    {pids : List Nat} {chs chs2 : List Chromosome}
    (hnd : (chsGenes chs).Nodup)
    (h : mutateLoop coin genePick targetPick pids chs = some chs2) :
    chsGenesM chs2 = chsGenesM chs := by
  induction pids generalizing chs with
  | nil =>
    unfold mutateLoop at h
    simp only [Option.some.injEq] at h
    rw [← h]
  | cons pid rest ih =>
    unfold mutateLoop at h
    by_cases hcoin : coin pid
    · rw [if_pos hcoin] at h
      cases hstep : mutateStep pid genePick targetPick chs with
      | none => rw [hstep] at h; exact absurd h (by simp)
      | some chs1 =>
        rw [hstep] at h
        have h1 := mutateStep_genesM hnd hstep
        have hnd1 : (chsGenes chs1).Nodup := by
          have : (chsGenesM chs1).Nodup := by
            rw [h1]; simpa [chsGenesM] using hnd
          simpa [chsGenesM] using this
        rw [ih hnd1 h, h1]
    · rw [if_neg hcoin] at h
      exact ih hnd h

/-- C4 (amended): on an individual without duplicated genes (in particular on
any individual satisfying the completeness invariant), every completed call
to `mutate` preserves the total gene count (indeed the whole gene multiset).
Without that hypothesis the count can drop — see the counterexample. -/
theorem mutate_preserves_gene_count (config : AlgorithmConfig)
    (ind : Individual) (coin : Nat → Bool) (genePick targetPick : Nat → Nat)
    (ind2 : Individual) (hnd : (chsGenes ind.chromosomes).Nodup)
    (h : mutate config ind coin genePick targetPick = some ind2) :
    (chsGenes ind2.chromosomes).length = (chsGenes ind.chromosomes).length := by
  unfold mutate at h
  cases hloop : mutateLoop coin genePick targetPick
      (List.range config.numberOfPeriods) ind.chromosomes with
  | none => rw [hloop] at h; exact absurd h (by simp)
  | some chs2 =>
    rw [hloop] at h
    simp only [Option.map_some', Option.some.injEq] at h
    have hM := mutateLoop_genesM hnd hloop
    have := congrArg Multiset.card hM
    simp only [chsGenesM, Multiset.coe_card] at this
    rw [← h]
    exact this

/-- A two-period configuration for the mutation examples. -/
def exConfig2 : AlgorithmConfig :=
  { maxGenerations := 100, populationSize := 1, numberOfPeriods := 2,
    crossoverProbability := 0.6, mutationProbability := 0.01,
    deadThreshold := 0.1 }

/-- An individual whose first period holds the gene `5` twice. -/
def exDupInd : Individual :=
  { adaptation := -1000
    chromosomes := [{ id := 0, genes := [5, 5] }, { id := 1, genes := [] }] }

/-- C4 counterexample: mutating the duplicated-gene individual (mutation
fires on period 0 only, removing the gene at position 0) drops the total
gene count from 2 to 1: `remove` takes one copy and the subsequent
`retain(|g| g != &gene)` silently deletes the second copy, while only one
copy is pushed to the other period. -/
theorem mutate_gene_count_counterexample :
    mutate exConfig2 exDupInd (fun pid => pid == 0) (fun _ => 0) (fun _ => 0) =
      some { adaptation := -1000
             chromosomes := [{ id := 0, genes := [] }, { id := 1, genes := [5] }] } ∧
    (chsGenes exDupInd.chromosomes).length = 2 ∧
    (chsGenes [{ id := 0, genes := ([] : List Gene) },
      { id := 1, genes := [5] }]).length = 1 := by
  decide

/-- A duplicate-free individual for the mutation witness. -/
def exNodupInd : Individual :=
  { adaptation := -1000
    chromosomes := [{ id := 0, genes := [5] }, { id := 1, genes := [] }] }

/-- The result of the witness mutation of `exNodupInd`. -/
def exNodupMutated : Individual :=
  { adaptation := -1000
    chromosomes := [{ id := 0, genes := [] }, { id := 1, genes := [5] }] }

/-- Witness for the amended C4 on `exNodupInd`. -/
theorem mutate_preserves_gene_count_witness :
    (chsGenes exNodupMutated.chromosomes).length =
      (chsGenes exNodupInd.chromosomes).length :=
  mutate_preserves_gene_count exConfig2 exNodupInd (fun pid => pid == 0)
    (fun _ => 0) (fun _ => 0) exNodupMutated (by decide) (by decide)

/-! ## Initial population (C5) -/

theorem initFold_map_id (ci : Nat → Nat) (ts : List Tuple) (k : Nat)
    (chs : List Chromosome) :
    (((ts.enumFrom k).foldl
        (fun chs jt => modifyIdx (pushGene jt.2.id) (ci jt.1) chs) chs).map
      (·.id)) = chs.map (·.id) := by
  induction ts generalizing k chs with
  | nil => rfl
  | cons t ts ih =>
    show (((ts.enumFrom (k + 1)).foldl _ (modifyIdx (pushGene t.id) (ci k) chs)).map (·.id)) = _
    rw [ih]
    exact map_modifyIdx _ _ _ _ (fun a => rfl)

theorem initFold_length (ci : Nat → Nat) (ts : List Tuple) (k : Nat)
    (chs : List Chromosome) :
    ((ts.enumFrom k).foldl
        (fun chs jt => modifyIdx (pushGene jt.2.id) (ci jt.1) chs) chs).length =
      chs.length := by
  induction ts generalizing k chs with
  | nil => rfl
  | cons t ts ih =>
    show ((ts.enumFrom (k + 1)).foldl _ (modifyIdx (pushGene t.id) (ci k) chs)).length = _
    rw [ih, length_modifyIdx]

theorem initFold_genesM (ci : Nat → Nat) (ts : List Tuple) (k : Nat)
    (chs : List Chromosome) (n : Nat) (hlen : chs.length = n)
    (hc : ∀ j, j < ts.length → ci (k + j) < n) :
    chsGenesM ((ts.enumFrom k).foldl
        (fun chs jt => modifyIdx (pushGene jt.2.id) (ci jt.1) chs) chs) =
      chsGenesM chs + ((ts.map (·.id) : List Gene) : Multiset Gene) := by
  induction ts generalizing k chs with
  | nil => simp
  | cons t ts ih =>
    have hk : ci k < chs.length := by
      have h0 := hc 0 (by simp)
      rw [Nat.add_zero] at h0
      omega
    have hstep : chsGenesM (modifyIdx (pushGene t.id) (ci k) chs) =
        t.id ::ₘ chsGenesM chs := chsGenesM_modifyIdx_pushGene hk
    show chsGenesM ((ts.enumFrom (k + 1)).foldl _
        (modifyIdx (pushGene t.id) (ci k) chs)) = _
    rw [ih (k + 1) _ ((length_modifyIdx _ _ _).trans hlen) (fun j hj => by
      have := hc (j + 1) (by simpa using hj)
      rwa [show k + (j + 1) = k + 1 + j by omega] at this), hstep]
    simp only [List.map_cons, ← Multiset.cons_coe, ← Multiset.singleton_add]
    abel

/-- C5 (amended): `create_first_population` returns `population_size`
individuals, each with `number_of_periods` chromosomes whose ids are
`0..number_of_periods` in order, and each individual's gene multiset equals
the multiset of catalog tuple ids; consequently, when the catalog ids are
pairwise distinct, every tuple's id appears exactly once.  (With duplicate
ids in the catalog an id appears as often as the catalog lists it — see the
counterexample.) -/
theorem create_first_population_spec (config : AlgorithmConfig)
    (tuples : List Tuple) (choice : Nat → Nat → Nat)
    (hchoice : ∀ i j, j < tuples.length → choice i j < config.numberOfPeriods) :
    (create_first_population config tuples choice).length =
      config.populationSize ∧
    ∀ ind ∈ create_first_population config tuples choice,
      ind.chromosomes.map (·.id) =
        (List.range config.numberOfPeriods).map Int.ofNat ∧
      chsGenesM ind.chromosomes = ((tuples.map (·.id) : List Gene) : Multiset Gene) ∧
      ((tuples.map (·.id)).Nodup →
        ∀ t ∈ tuples, (chsGenes ind.chromosomes).count t.id = 1) := by
  constructor
  · simp [create_first_population]
  · intro ind hind
    obtain ⟨i, hi, rfl⟩ := List.mem_map.mp hind
    set base : List Chromosome := (List.range config.numberOfPeriods).map
      (fun pid => { id := Int.ofNat pid, genes := [] }) with hbase
    have hbaselen : base.length = config.numberOfPeriods := by
      simp [hbase]
    have hbaseids : base.map (·.id) =
        (List.range config.numberOfPeriods).map Int.ofNat := by
      simp [hbase, List.map_map, Function.comp]
    have hbasegenes : chsGenesM base = 0 := by
      have : chsGenes base = [] := by
        apply List.flatten_eq_nil_iff.mpr
        intro x hx
        simp only [hbase, chsGenes, List.map_map, List.mem_map] at hx
        obtain ⟨pid, _, rfl⟩ := hx
        rfl
      simp [chsGenesM, this]
    have hids : (tuples.enum.foldl
        (fun chs jt => modifyIdx (pushGene jt.2.id) (choice i jt.1) chs)
          base).map (·.id) = (List.range config.numberOfPeriods).map Int.ofNat := by
      rw [show tuples.enum = tuples.enumFrom 0 from rfl, initFold_map_id,
        hbaseids]
    have hgenes : chsGenesM (tuples.enum.foldl
        (fun chs jt => modifyIdx (pushGene jt.2.id) (choice i jt.1) chs) base) =
        ((tuples.map (·.id) : List Gene) : Multiset Gene) := by
      rw [show tuples.enum = tuples.enumFrom 0 from rfl,
        initFold_genesM (choice i) tuples 0 base config.numberOfPeriods hbaselen
          (fun j hj => by simpa using hchoice i j hj), hbasegenes, zero_add]
    refine ⟨hids, hgenes, fun hnd t ht => ?_⟩
    have hcnt := congrArg (Multiset.count t.id) hgenes
    simp only [chsGenesM, Multiset.coe_count] at hcnt
    rw [hcnt]
    exact List.count_eq_one_of_mem hnd (List.mem_map_of_mem (·.id) ht)

/-- A catalog tuple with id 7 for the initialization examples. -/
def exDupTuple : Tuple := { id := 7, label := "X", room := "R", teacher := "T" }

/-- C5 counterexample: with a catalog that lists the same id twice, the
id appears twice — not exactly once — in every individual. -/
theorem create_first_population_counterexample :
    create_first_population exConfig1 [exDupTuple, exDupTuple] (fun _ _ => 0) =
      [{ adaptation := -1000, chromosomes := [{ id := 0, genes := [7, 7] }] }] ∧
    (chsGenes [{ id := 0, genes := [7, 7] }]).count exDupTuple.id ≠ 1 := by
  decide

/-- Witness for C5 on a two-tuple catalog with distinct ids. -/
theorem create_first_population_spec_witness :
    (create_first_population exConfig1 [exSoloTuple, exDupTuple]
      (fun _ _ => 0)).length = exConfig1.populationSize :=
  (create_first_population_spec exConfig1 [exSoloTuple, exDupTuple]
    (fun _ _ => 0) (fun _ _ _ => Nat.one_pos)).1

/-! ## Crossover re-establishes the completeness invariant (C1) -/

theorem mem_chsGenes_of_mem {c : Chromosome} {chs : List Chromosome}
    {g : Gene} (hc : c ∈ chs) (hg : g ∈ c.genes) : g ∈ chsGenes chs := by
  unfold chsGenes
  rw [List.mem_flatten]
  exact ⟨c.genes, List.mem_map_of_mem (·.genes) hc, hg⟩

theorem childChromosome_genes_subset {mc fc c : Chromosome} {m : Nat}
    (h : childChromosome mc fc m = some c) :
    ∀ g ∈ c.genes, g ∈ fc.genes ∨ g ∈ mc.genes := by
  unfold childChromosome at h
  by_cases hid : mc.id = fc.id
  · rw [if_pos hid] at h
    dsimp only at h
    by_cases hm : m ≤ min fc.genes.length mc.genes.length
    · rw [if_pos hm] at h
      simp only [Option.some.injEq] at h
      intro g hg
      rw [← h] at hg
      rcases List.mem_append.mp hg with hg | hg
      · exact Or.inl (List.take_subset m fc.genes hg)
      · exact Or.inr (List.drop_subset m mc.genes hg)
    · rw [if_neg hm] at h
      exact absurd h (by simp)
  · rw [if_neg hid] at h
    exact absurd h (by simp)

theorem crossChromosomes_genes_subset {mps : Nat → Nat} {i : Nat}
    {pairs : List (Chromosome × Chromosome)} {cs : List Chromosome}
    (h : crossChromosomes mps i pairs = some cs) :
    ∀ g ∈ chsGenes cs, ∃ p ∈ pairs, g ∈ p.2.genes ∨ g ∈ p.1.genes := by
  induction pairs generalizing i cs with
  | nil =>
    unfold crossChromosomes at h
    simp only [Option.some.injEq] at h
    rw [← h]
    intro g hg
    simp [chsGenes] at hg
  | cons p rest ih =>
    unfold crossChromosomes at h
    cases hcc : childChromosome p.1 p.2 (mps i) with
    | none => rw [hcc] at h; exact absurd h (by simp)
    | some c =>
      rw [hcc] at h
      cases hrest : crossChromosomes mps (i + 1) rest with
      | none => rw [hrest] at h; exact absurd h (by simp)
      | some cs0 =>
        rw [hrest] at h
        simp only [Option.some.injEq] at h
        intro g hg
        rw [← h] at hg
        rw [chsGenes_cons, List.mem_append] at hg
        rcases hg with hg | hg
        · exact ⟨p, by simp, childChromosome_genes_subset hcc g hg⟩
        · obtain ⟨q, hq, hgq⟩ := ih hrest g hg
          exact ⟨q, by simp [hq], hgq⟩

theorem placeLost_genesM {n : Nat} {lc : Nat → Nat} {gs : List Gene}
    {k : Nat} {chs chs2 : List Chromosome}
    (h : placeLost n lc k gs chs = some chs2) :
    chsGenesM chs2 = chsGenesM chs + (gs : Multiset Gene) := by
  induction gs generalizing k chs with
  | nil =>
    unfold placeLost at h
    simp only [Option.some.injEq] at h
    rw [← h]
    simp
  | cons g gs ih =>
    unfold placeLost at h
    by_cases hcond : lc k < n ∧ lc k < chs.length
    · rw [if_pos hcond] at h
      have := ih h
      rw [this, chsGenesM_modifyIdx_pushGene hcond.2]
      simp only [← Multiset.cons_coe, ← Multiset.singleton_add]
      abel
    · rw [if_neg hcond] at h
      exact absurd h (by simp)

theorem dedupGenes_spec (gs : List Gene) : ∀ seen : List Gene,
    (dedupGenes gs seen).1.Nodup ∧
    (∀ g, g ∈ (dedupGenes gs seen).1 ↔ g ∈ gs ∧ g ∉ seen) ∧
    (∀ g, g ∈ (dedupGenes gs seen).2 ↔ g ∈ gs ∨ g ∈ seen) := by
  induction gs with
  | nil => intro seen; simp [dedupGenes]
  | cons gh gs ih =>
    intro seen
    by_cases hmem : gh ∈ seen
    · have hc : seen.contains gh = true := List.elem_iff.mpr hmem
      unfold dedupGenes
      rw [if_pos hc]
      obtain ⟨h1, h2, h3⟩ := ih seen
      refine ⟨h1, fun g => ?_, fun g => ?_⟩
      · rw [h2 g]
        constructor
        · rintro ⟨hg, hns⟩
          exact ⟨List.mem_cons_of_mem _ hg, hns⟩
        · rintro ⟨hg, hns⟩
          rcases List.mem_cons.mp hg with rfl | hg
          · exact absurd hmem hns
          · exact ⟨hg, hns⟩
      · rw [h3 g]
        constructor
        · rintro (hg | hs)
          · exact Or.inl (List.mem_cons_of_mem _ hg)
          · exact Or.inr hs
        · rintro (hg | hs)
          · rcases List.mem_cons.mp hg with rfl | hg
            · exact Or.inr hmem
            · exact Or.inl hg
          · exact Or.inr hs
    · have hc : ¬(seen.contains gh = true) := by
        simpa [List.elem_iff] using hmem
      unfold dedupGenes
      rw [if_neg hc]
      obtain ⟨h1, h2, h3⟩ := ih (gh :: seen)
      dsimp only
      refine ⟨?_, fun g => ?_, fun g => ?_⟩
      · rw [List.nodup_cons]
        refine ⟨fun hg => ?_, h1⟩
        rw [h2 gh] at hg
        exact hg.2 (List.mem_cons_self _ _)
      · rw [List.mem_cons, h2 g]
        constructor
        · rintro (rfl | ⟨hg, hns⟩)
          · exact ⟨List.mem_cons_self _ _, hmem⟩
          · exact ⟨List.mem_cons_of_mem _ hg,
              fun hs => hns (List.mem_cons_of_mem _ hs)⟩
        · rintro ⟨hg, hns⟩
          by_cases hgg : g = gh
          · exact Or.inl hgg
          · rcases List.mem_cons.mp hg with rfl | hg2
            · exact absurd rfl hgg
            · exact Or.inr ⟨hg2, fun hs => (List.mem_cons.mp hs).elim hgg hns⟩
      · rw [h3 g]
        constructor
        · rintro (hg | hs)
          · exact Or.inl (List.mem_cons_of_mem _ hg)
          · rcases List.mem_cons.mp hs with rfl | hs
            · exact Or.inl (List.mem_cons_self _ _)
            · exact Or.inr hs
        · rintro (hg | hs)
          · rcases List.mem_cons.mp hg with rfl | hg
            · exact Or.inr (List.mem_cons_self _ _)
            · exact Or.inl hg
          · exact Or.inr (List.mem_cons_of_mem _ hs)

theorem dedupChromosomes_spec (chs : List Chromosome) : ∀ seen : List Gene,
    (chsGenes (dedupChromosomes chs seen)).Nodup ∧
    (∀ g, g ∈ chsGenes (dedupChromosomes chs seen) ↔
      g ∈ chsGenes chs ∧ g ∉ seen) := by
  induction chs with
  | nil => intro seen; simp [dedupChromosomes, chsGenes]
  | cons c cs ih =>
    intro seen
    obtain ⟨hd1, hd2, hd3⟩ := dedupGenes_spec c.genes seen
    obtain ⟨hc1, hc2⟩ := ih (dedupGenes c.genes seen).2
    have hshape : chsGenes (dedupChromosomes (c :: cs) seen) =
        (dedupGenes c.genes seen).1 ++
          chsGenes (dedupChromosomes cs (dedupGenes c.genes seen).2) := rfl
    constructor
    · rw [hshape, List.nodup_append]
      refine ⟨hd1, hc1, fun g hg hg2 => ?_⟩
      rw [hd2 g] at hg
      rw [hc2 g] at hg2
      exact hg2.2 ((hd3 g).mpr (Or.inl hg.1))
    · intro g
      rw [hshape, List.mem_append, hd2 g, hc2 g, chsGenes_cons,
        List.mem_append]
      constructor
      · rintro (⟨hg, hns⟩ | ⟨hg, hns⟩)
        · exact ⟨Or.inl hg, hns⟩
        · exact ⟨Or.inr hg, fun hs => hns ((hd3 g).mpr (Or.inr hs))⟩
      · rintro ⟨hg | hg, hns⟩
        · exact Or.inl ⟨hg, hns⟩
        · by_cases hcg : g ∈ c.genes
          · exact Or.inl ⟨hcg, hns⟩
          · refine Or.inr ⟨hg, fun hs => ?_⟩
            rcases (hd3 g).mp hs with hs | hs
            · exact hcg hs
            · exact hns hs

/-- C1: if both parents selected for a crossover satisfy the completeness
invariant for the tuple-id universe `u`, then so does the returned child:
recombination only uses parent genes, the lost-gene repair restores every
missing id, and the duplicate removal leaves each id exactly once. -/
theorem crossover_complete (config : AlgorithmConfig)
    (population : Population) (idx1 : Nat) (idx2draws : List Nat)
    (mps lostChoice : Nat → Nat) (mother father child : Individual)
    (u : Finset Int)
    (hsel : rand_parents population idx1 idx2draws = some (mother, father))
    (hm : complete mother u) (hf : complete father u)
    (h : crossover config population idx1 idx2draws mps lostChoice =
      some child) :
    complete child u := by
  unfold crossover at h
  rw [hsel] at h
  dsimp only at h
  unfold complete at hm hf ⊢
  unfold crossover_parents at h
  cases hcc : crossChromosomes mps 0
      (mother.chromosomes.zip father.chromosomes) with
  | none => rw [hcc] at h; exact absurd h (by simp)
  | some childChs =>
    rw [hcc] at h
    dsimp only at h
    cases hpl : placeLost config.numberOfPeriods lostChoice 0
        (lostGenes mother childChs) childChs with
    | none => rw [hpl] at h; exact absurd h (by simp)
    | some repaired =>
      rw [hpl] at h
      dsimp only at h
      simp only [Option.some.injEq] at h
      -- parent gene lists have exactly the universe as members
      have hmu : ∀ g, g ∈ chsGenes mother.chromosomes ↔ g ∈ u := by
        intro g
        rw [← Multiset.mem_coe]
        show g ∈ chsGenesM mother.chromosomes ↔ _
        rw [hm]
        exact Finset.mem_val
      have hfu : ∀ g, g ∈ chsGenes father.chromosomes ↔ g ∈ u := by
        intro g
        rw [← Multiset.mem_coe]
        show g ∈ chsGenesM father.chromosomes ↔ _
        rw [hf]
        exact Finset.mem_val
      -- the recombined child only carries universe genes
      have hsub : ∀ g ∈ chsGenes childChs, g ∈ u := by
        intro g hg
        obtain ⟨p, hp, hgp⟩ := crossChromosomes_genes_subset hcc g hg
        rcases hgp with hgp | hgp
        · exact (hfu g).mp (mem_chsGenes_of_mem (List.of_mem_zip hp).2 hgp)
        · exact (hmu g).mp (mem_chsGenes_of_mem (List.of_mem_zip hp).1 hgp)
      -- after the lost-gene repair, membership is recombined-or-lost
      have hrep : ∀ g, g ∈ chsGenes repaired ↔
          (g ∈ chsGenes childChs ∨ g ∈ lostGenes mother childChs) := by
        intro g
        have := placeLost_genesM hpl
        rw [← Multiset.mem_coe]
        show g ∈ chsGenesM repaired ↔ _
        rw [this, Multiset.mem_add]
        simp [chsGenesM]
      -- the repaired child carries exactly the universe, member-wise
      have hrsub : ∀ g ∈ chsGenes repaired, g ∈ u := by
        intro g hg
        rcases (hrep g).mp hg with hg | hg
        · exact hsub g hg
        · exact (hmu g).mp ((mem_lostGenes mother childChs g).mp hg).1
      have hcover : ∀ g ∈ u, g ∈ chsGenes repaired := by
        intro g hg
        by_cases hgc : g ∈ chsGenes childChs
        · exact (hrep g).mpr (Or.inl hgc)
        · refine (hrep g).mpr (Or.inr ?_)
          refine (mem_lostGenes mother childChs g).mpr
            ⟨(hmu g).mpr hg, fun c hc hgc2 => ?_⟩
          exact hgc (mem_chsGenes_of_mem hc hgc2)
      -- deduplication turns that into multiset equality with the universe
      obtain ⟨hnod, hmem⟩ := dedupChromosomes_spec repaired []
      rw [← h]
      have h1 : (chsGenesM (dedupChromosomes repaired [])).Nodup := by
        simpa [chsGenesM] using hnod
      refine (Multiset.Nodup.ext h1 u.nodup).mpr (fun g => ?_)
      show g ∈ (chsGenes (dedupChromosomes repaired []) : Multiset Gene) ↔
        g ∈ u.val
      rw [Multiset.mem_coe, Finset.mem_val, hmem g]
      constructor
      · rintro ⟨hg, -⟩
        exact hrsub g hg
      · intro hg
        exact ⟨hcover g hg, by simp⟩

/-- A complete parent holding genes 7, 8 (adaptation −3, sorts first). -/
def exParentA : Individual :=
  { adaptation := -3, chromosomes := [{ id := 0, genes := [7, 8] }] }

/-- A complete parent holding genes 8, 7 (adaptation −5, sorts second). -/
def exParentB : Individual :=
  { adaptation := -5, chromosomes := [{ id := 0, genes := [8, 7] }] }

/-- Witness for C1: crossing `exParentA`/`exParentB` over universe `{7, 8}`
at mating point 1 yields the complete child with genes `[8, 7]`. -/
theorem crossover_complete_witness :
    complete { adaptation := -1000,
               chromosomes := [{ id := 0, genes := [8, 7] }] }
      ({7, 8} : Finset Int) :=
  crossover_complete exConfig1 [exParentA, exParentB] 0 [1] (fun _ => 1)
    (fun _ => 0) exParentA exParentB
    { adaptation := -1000, chromosomes := [{ id := 0, genes := [8, 7] }] }
    ({7, 8} : Finset Int) (by decide) (by unfold complete; decide)
    (by unfold complete; decide) (by decide)

/-! ## Collective distribution layer: theorems (C7, C8, C10) -/

/-- A concrete 1-byte codec on small non-negative integers, used by the
collective-layer witnesses. -/
def encInt (n : Int) : List Nat := [n.toNat]

/-- Decoder matching `encInt`. -/
def decInt (l : List Nat) : Int := ((l.headD 0 : Nat) : Int)

theorem mapOption_congr {α β : Type} {f : α → Option β} {g : α → β}
    {l : List α} (h : ∀ a ∈ l, f a = some (g a)) :
    mapOption f l = some (l.map g) := by
  induction l with
  | nil => rfl
  | cons x xs ih =>
    unfold mapOption
    rw [h x (by simp), ih (fun a ha => h a (by simp [ha]))]
    rfl

theorem mapOption_none_of_mem {α β : Type} {f : α → Option β} {l : List α}
    {x : α} (hx : x ∈ l) (hf : f x = none) : mapOption f l = none := by
  induction l with
  | nil => simp at hx
  | cons y ys ih =>
    unfold mapOption
    rcases List.mem_cons.mp hx with rfl | hx2
    · rw [hf]
    · cases hfy : f y with
      | none => rfl
      | some b => rw [ih hx2]

theorem chunksExactAux_flatten {α : Type} {b : Nat} (hb : 0 < b) :
    ∀ (L : List (List α)) (fuel : Nat), (∀ A ∈ L, A.length = b) →
      L.flatten.length ≤ fuel → chunksExactAux b fuel L.flatten = L := by
  intro L
  induction L with
  | nil => intro fuel _ _; cases fuel <;> rfl
  | cons A L ih =>
    intro fuel hA hfuel
    have hAlen : A.length = b := hA A (by simp)
    have hAne : A ≠ [] := by
      intro h0
      rw [h0] at hAlen
      simp at hAlen
      omega
    obtain ⟨a, A2, rfl⟩ := List.exists_cons_of_ne_nil hAne
    cases fuel with
    | zero =>
      exfalso
      simp only [List.flatten_cons, List.length_append, List.length_cons,
        Nat.le_zero] at hfuel
      omega
    | succ f =>
      show ((a :: (A2 ++ L.flatten)).take b ::
        chunksExactAux b f ((a :: (A2 ++ L.flatten)).drop b)) = _
      have h1 : (a :: (A2 ++ L.flatten)).take b = a :: A2 := by
        rw [show (a :: (A2 ++ L.flatten)) = (a :: A2) ++ L.flatten from rfl,
          show b = (a :: A2).length + 0 from by simp [← hAlen],
          List.take_append 0]
        simp
      have h2 : (a :: (A2 ++ L.flatten)).drop b = L.flatten := by
        rw [show (a :: (A2 ++ L.flatten)) = (a :: A2) ++ L.flatten from rfl,
          show b = (a :: A2).length + 0 from by simp [← hAlen],
          List.drop_append 0]
        simp
      rw [h1, h2, ih f (fun X hX => hA X (by simp [hX])) (by
        simp only [List.flatten_cons, List.length_append] at hfuel
        omega)]

theorem chunksExact_flatten {α : Type} {b : Nat} (hb : 0 < b)
    (L : List (List α)) (hA : ∀ A ∈ L, A.length = b) :
    chunksExact b L.flatten = L :=
  chunksExactAux_flatten hb L L.flatten.length hA le_rfl

theorem serialize_vec_uniform {α : Type} {enc : α → List Nat} {b : Nat}
    {l : List α} (hne : l ≠ []) (hlen : ∀ x ∈ l, (enc x).length = b) :
    serialize_vec enc l = some (b, (l.map enc).flatten) := by
  obtain ⟨x, xs, rfl⟩ := List.exists_cons_of_ne_nil hne
  have hall : ((((x :: xs).map enc).zip (xs.map enc)).all
      (fun p => p.1.length == p.2.length)) = true := by
    apply List.all_eq_true.mpr
    intro p hp
    have h1 := (List.of_mem_zip hp).1
    have h2 := (List.of_mem_zip hp).2
    obtain ⟨x1, hx1, he1⟩ := List.mem_map.mp h1
    obtain ⟨x2, hx2, he2⟩ := List.mem_map.mp h2
    rw [← he1, ← he2, hlen x1 hx1, hlen x2 (by simp [hx2])]
    exact beq_self_eq_true b
  show (if (((x :: xs).map enc).zip (xs.map enc)).all
      (fun p => p.1.length == p.2.length) then
    some ((enc x).length, (enc x :: xs.map enc).flatten) else none) = _
  rw [if_pos hall, hlen x (by simp)]
  rfl

theorem drop_flatten_uniform {α : Type} {enc : α → List Nat} {b : Nat} :
    ∀ (k : Nat) (l : List α), (∀ x ∈ l, (enc x).length = b) →
      ((l.map enc).flatten).drop (k * b) = ((l.drop k).map enc).flatten := by
  intro k
  induction k with
  | zero => intro l _; simp
  | succ k ih =>
    intro l hl
    cases l with
    | nil => simp
    | cons x xs =>
      have hx : (enc x).length = b := hl x (by simp)
      have hmul : (k + 1) * b = (enc x).length + k * b := by
        rw [hx]; ring
      show ((enc x ++ (xs.map enc).flatten)).drop ((k + 1) * b) = _
      rw [hmul, List.drop_append (k * b), ih xs (fun y hy => hl y (by simp [hy]))]
      rfl

theorem take_flatten_uniform {α : Type} {enc : α → List Nat} {b : Nat} :
    ∀ (k : Nat) (l : List α), (∀ x ∈ l, (enc x).length = b) →
      ((l.map enc).flatten).take (k * b) = ((l.take k).map enc).flatten := by
  intro k
  induction k with
  | zero => intro l _; simp
  | succ k ih =>
    intro l hl
    cases l with
    | nil => simp
    | cons x xs =>
      have hx : (enc x).length = b := hl x (by simp)
      have hmul : (k + 1) * b = (enc x).length + k * b := by
        rw [hx]; ring
      show ((enc x ++ (xs.map enc).flatten)).take ((k + 1) * b) = _
      rw [hmul, List.take_append (k * b), ih xs (fun y hy => hl y (by simp [hy]))]
      rfl

/-- Per-rank specification of `ScatterEven`: under the divisibility and
fixed-size preconditions, rank `r` receives exactly the `r`-th contiguous
block of `len/size` elements of the original collection. -/
theorem mpi_split_spec {α : Type} (enc : α → List Nat) (dec : List Nat → α)
    (data : List α) (size rank b : Nat) (hne : data ≠ [])
    (hdiv : data.length % size = 0) (hb : 0 < b)
    (hlen : ∀ x ∈ data, (enc x).length = b)
    (hdec : ∀ x ∈ data, dec (enc x) = x) :
    mpi_split_data_across_nodes enc dec data size rank =
      some ((data.drop (rank * (data.length / size))).take
        (data.length / size)) := by
  have hlen0 : data.length ≠ 0 := by
    intro h0
    exact hne (List.length_eq_zero.mp h0)
  unfold mpi_split_data_across_nodes
  rw [if_neg hlen0]
  dsimp only
  rw [if_pos hdiv, serialize_vec_uniform hne hlen]
  dsimp only
  rw [if_neg (by omega : ¬b = 0)]
  have hdropsub : ∀ g ∈ data.drop (rank * (data.length / size)), g ∈ data :=
    fun g hg => List.drop_subset _ data hg
  have htakesub : ∀ g ∈ (data.drop (rank * (data.length / size))).take
      (data.length / size), g ∈ data :=
    fun g hg => hdropsub g (List.take_subset _ _ hg)
  rw [show rank * (b * (data.length / size)) =
      (rank * (data.length / size)) * b from by ring,
    drop_flatten_uniform (rank * (data.length / size)) data hlen,
    show b * (data.length / size) = (data.length / size) * b from by ring,
    take_flatten_uniform (data.length / size) _
      (fun y hy => hlen y (hdropsub y hy)),
    chunksExact_flatten hb _ (by
      intro A hA
      obtain ⟨y, hy, rfl⟩ := List.mem_map.mp hA
      exact hlen y (htakesub y hy)),
    List.map_map]
  have hid : List.map (dec ∘ enc)
      ((data.drop (rank * (data.length / size))).take (data.length / size)) =
      List.map id
        ((data.drop (rank * (data.length / size))).take (data.length / size)) :=
    List.map_congr_left (fun a ha => hdec a (htakesub a ha))
  rw [hid, List.map_id]

/-- C7: `ScatterEven` on a collection whose length is not divisible by the
worker count aborts (`assert_eq!(data.len() % size, 0)`) and never returns a
shard. -/
theorem mpi_split_nondivisible_none {α : Type} (enc : α → List Nat)
    (dec : List Nat → α) (data : List α) (size rank : Nat)
    (h : data.length % size ≠ 0) :
    mpi_split_data_across_nodes enc dec data size rank = none := by
  have hlen0 : data.length ≠ 0 := by
    intro h0
    exact h (by rw [h0]; exact Nat.zero_mod size)
  unfold mpi_split_data_across_nodes
  rw [if_neg hlen0]
  dsimp only
  rw [if_neg h]

/-- Witness for C7: five elements cannot be scattered over two ranks. -/
theorem mpi_split_nondivisible_none_witness :
    mpi_split_data_across_nodes encInt decInt [1, 2, 3, 4, 5] 2 0 = none :=
  mpi_split_nondivisible_none encInt decInt [1, 2, 3, 4, 5] 2 0 (by decide)

/-- C10: both collectives abort on an empty input collection —
`assert_ne!(len, 0)` in `ScatterEven`, and in `GatherAndReplicate` the rank
holding an empty shard hits `assert_ne!` / `serialized_data[0]`. -/
theorem mpi_collectives_empty_abort {α : Type} (enc : α → List Nat)
    (dec : List Nat → α) (size rank : Nat) (shards : List (List α)) :
    mpi_split_data_across_nodes enc dec ([] : List α) size rank = none ∧
    (([] : List α) ∈ shards →
      mpi_gather_and_synchronize enc dec shards = none) := by
  constructor
  · rfl
  · intro hmem
    unfold mpi_gather_and_synchronize
    rw [mapOption_none_of_mem hmem (by rfl)]

/-- Witness for C10 with three ranks / a singleton list of one empty
shard. -/
theorem mpi_collectives_empty_abort_witness :
    mpi_split_data_across_nodes encInt decInt ([] : List Int) 3 1 = none ∧
    mpi_gather_and_synchronize encInt decInt [([] : List Int)] = none :=
  ⟨(mpi_collectives_empty_abort encInt decInt 3 1 [[]]).1,
   (mpi_collectives_empty_abort encInt decInt 3 1 [[]]).2 (by decide)⟩

theorem flatten_map_flatten_enc {α : Type} (enc : α → List Nat) :
    ∀ shards : List (List α),
      (shards.map (fun sh => ((sh.map enc).flatten : List Nat))).flatten =
        ((shards.flatten).map enc).flatten := by
  intro shards
  induction shards with
  | nil => rfl
  | cons sh rest ih =>
    simp only [List.map_cons, List.flatten_cons, List.map_append,
      List.flatten_append, ih]

/-- `GatherAndReplicate` on per-rank shards of uniformly-sized elements
returns their in-rank-order concatenation (on every rank, after the final
broadcast). -/
theorem mpi_gather_spec {α : Type} (enc : α → List Nat) (dec : List Nat → α)
    (shards : List (List α)) (b : Nat) (hb : 0 < b)
    (hne : shards ≠ []) (hshne : ∀ sh ∈ shards, sh ≠ [])
    (hlen : ∀ x ∈ shards.flatten, (enc x).length = b)
    (hdec : ∀ x ∈ shards.flatten, dec (enc x) = x) :
    mpi_gather_and_synchronize enc dec shards = some shards.flatten := by
  have hmemflat : ∀ sh ∈ shards, ∀ x ∈ sh, x ∈ shards.flatten := by
    intro sh hsh x hx
    exact List.mem_flatten.mpr ⟨sh, hsh, hx⟩
  have hser : ∀ sh ∈ shards, serialize_vec enc sh =
      some (b, ((sh.map enc).flatten : List Nat)) := by
    intro sh hsh
    exact serialize_vec_uniform (hshne sh hsh)
      (fun x hx => hlen x (hmemflat sh hsh x hx))
  unfold mpi_gather_and_synchronize
  rw [mapOption_congr (g := fun sh => (b, ((sh.map enc).flatten : List Nat)))
    hser]
  obtain ⟨sh0, rest, rfl⟩ := List.exists_cons_of_ne_nil hne
  rw [List.map_cons]
  dsimp only
  rw [if_neg (by omega : ¬b = 0)]
  rw [List.map_cons, List.map_map]
  have hbuf : ((List.map enc sh0).flatten ::
      (rest.map ((fun x : Nat × List Nat => x.2) ∘
        (fun sh => (b, ((sh.map enc).flatten : List Nat)))))).flatten =
      (((sh0 :: rest).flatten).map enc).flatten :=
    flatten_map_flatten_enc enc (sh0 :: rest)
  rw [hbuf,
    chunksExact_flatten hb _ (by
      intro A hA
      obtain ⟨y, hy, rfl⟩ := List.mem_map.mp hA
      exact hlen y hy),
    List.map_map]
  have hid : List.map (dec ∘ enc) ((sh0 :: rest).flatten) =
      List.map id ((sh0 :: rest).flatten) :=
    List.map_congr_left (fun a ha => hdec a ha)
  rw [hid, List.map_id]

theorem flatten_range_chunks {α : Type} :
    ∀ (size s : Nat) (l : List α), l.length = size * s →
      ((List.range size).map (fun r => (l.drop (r * s)).take s)).flatten = l := by
  intro size
  induction size with
  | zero =>
    intro s l hl
    simp only [Nat.zero_mul] at hl
    rw [List.length_eq_zero.mp hl]
    rfl
  | succ size ih =>
    intro s l hl
    rw [List.range_succ_eq_map, List.map_cons, List.map_map,
      List.flatten_cons]
    have hmap : (List.range size).map
        ((fun r => (l.drop (r * s)).take s) ∘ Nat.succ) =
        (List.range size).map (fun r => ((l.drop s).drop (r * s)).take s) := by
      apply List.map_congr_left
      intro r _
      show (l.drop ((r + 1) * s)).take s = ((l.drop s).drop (r * s)).take s
      rw [List.drop_drop]
      congr 2
      ring
    rw [hmap, ih s (l.drop s) (by
      rw [List.length_drop, hl]
      ring_nf
      omega)]
    simp

/-- C8 (amended): for a *nonempty* Population whose length is divisible by
the worker count and whose elements all serialize to the same positive byte
length, gathering the per-rank shards produced by `ScatterEven` yields, on
every rank, exactly the original collection (in particular the same
multiset).  The empty population instead aborts in `ScatterEven` — see the
counterexample. -/
theorem scatter_gather_roundtrip {α : Type} (enc : α → List Nat)
    (dec : List Nat → α) (P : List α) (size b : Nat) (hsize : 0 < size)
    (hne : P ≠ []) (hdiv : P.length % size = 0) (hb : 0 < b)
    (hlen : ∀ x ∈ P, (enc x).length = b) (hdec : ∀ x ∈ P, dec (enc x) = x) :
    ∃ shards out,
      mapOption (fun r => mpi_split_data_across_nodes enc dec P size r)
        (List.range size) = some shards ∧
      mpi_gather_and_synchronize enc dec shards = some out ∧
      (out : Multiset α) = (P : Multiset α) := by
  set s := P.length / size with hs
  have hPlen : P.length = size * s := by
    rw [hs, Nat.mul_div_cancel' (Nat.dvd_of_mod_eq_zero hdiv)]
  have hs0 : 0 < s := by
    have : P.length ≠ 0 := fun h0 => hne (List.length_eq_zero.mp h0)
    by_contra h0
    push_neg at h0
    interval_cases s
    omega
  refine ⟨(List.range size).map (fun r => (P.drop (r * s)).take s),
    P, ?_, ?_, rfl⟩
  · exact mapOption_congr (fun r _ =>
      mpi_split_spec enc dec P size r b hne hdiv hb hlen hdec)
  · have hflat : ((List.range size).map
        (fun r => (P.drop (r * s)).take s)).flatten = P :=
      flatten_range_chunks size s P hPlen
    have hne2 : (List.range size).map (fun r => (P.drop (r * s)).take s) ≠ [] := by
      intro h0
      rw [List.map_eq_nil_iff, List.range_eq_nil] at h0
      omega
    have hshne : ∀ sh ∈ (List.range size).map
        (fun r => (P.drop (r * s)).take s), sh ≠ [] := by
      intro sh hsh
      obtain ⟨r, hr, rfl⟩ := List.mem_map.mp hsh
      rw [List.mem_range] at hr
      apply List.ne_nil_of_length_pos
      rw [List.length_take, List.length_drop, hPlen]
      have : size * s - r * s ≥ s := by
        have : (r + 1) * s ≤ size * s := Nat.mul_le_mul_right s hr
        have h2 : (r + 1) * s = r * s + s := by ring
        omega
      omega
    have hgather := mpi_gather_spec enc dec
      ((List.range size).map (fun r => (P.drop (r * s)).take s)) b hb
      hne2 hshne (fun x hx => hlen x (hflat ▸ hx))
      (fun x hx => hdec x (hflat ▸ hx))
    rw [hflat] at hgather
    exact hgather

/-- C8 counterexample (to the claim as stated, i.e. including the empty
population): the empty collection satisfies the divisibility and
uniform-size hypotheses vacuously, yet `ScatterEven` aborts at
`assert_ne!(data.len(), 0)`, so the round trip yields no shards at all on
any rank. -/
theorem scatter_gather_roundtrip_counterexample :
    mapOption (fun r => mpi_split_data_across_nodes encInt decInt
      ([] : List Int) 1 r) (List.range 1) = none := by
  decide

/-- Witness for the amended C8: the two-element population `[10, 20]`
scattered over two ranks and gathered back is exactly `[10, 20]` again. -/
theorem scatter_gather_roundtrip_witness :
    ∃ shards out,
      mapOption (fun r => mpi_split_data_across_nodes encInt decInt
        [10, 20] 2 r) (List.range 2) = some shards ∧
      mpi_gather_and_synchronize encInt decInt shards = some out ∧
      (out : Multiset Int) = (([10, 20] : List Int) : Multiset Int) :=
  scatter_gather_roundtrip encInt decInt [10, 20] 2 1 (by decide)
    (by decide) (by decide) (by decide) (by decide) (by decide)

end Planner
